import Mathlib

/-!
# Verification of `metailurini/linter` (src/main.go)

A shallow embedding of the diff-filtering tool: the hunk-header range
parser `findChangesByHunkHeader`, the change-set builder `findChanges`,
the change index `getChangesByFileName`, and the issue-selection loop of
`main`.  Strings are modelled as `List Char`; Go's 64-bit integers are
modelled as `Int` with explicit reduction modulo `2 ^ 64` at the one
place addition can overflow.  Subprocess outputs (changed-file lists,
per-file hunk headers, the decoded lint JSON, exit statuses) are
parameters of the functions that consume them.
-/

namespace Linter

/-! ## The hunk-header scanner

`main.go` extracts ranges with the regular expression `[+](\d+),(\d+)`
via `FindAllStringSubmatch`.  A match is a `'+'` followed by a maximal
non-empty digit run, a `','`, and a maximal non-empty digit run; matches
are reported left to right.  Since a match can contain `'+'` only as its
first character, no match can begin strictly inside another, so the set
of matches is exactly the set of positions at which a `'+'` is followed
by `digits ',' digits`; `findMatches` scans for those positions
structurally. -/

/-- Attempt the `(\d+),(\d+)` part of the pattern on the text that
follows a `'+'`: a maximal non-empty digit run, a comma, a maximal
non-empty digit run.  Returns the two captured digit runs. -/
def matchPlus (l : List Char) : Option (List Char × List Char) :=
  let d1 := l.takeWhile Char.isDigit
  match l.dropWhile Char.isDigit with
  | ',' :: r2 =>
    let d2 := r2.takeWhile Char.isDigit
    if d1 = [] ∨ d2 = [] then none else some (d1, d2)
  | _ => none

/-- All matches of `[+](\d+),(\d+)` in the text, left to right, as pairs
of captured digit runs (Go's `FindAllStringSubmatch(s, -1)` restricted
to the two capture groups). -/
def findMatches : List Char → List (List Char × List Char)
  | [] => []
  | c :: rest =>
    (if c = '+' then (matchPlus rest).toList else []) ++ findMatches rest

/-! ## Integer parsing and 64-bit arithmetic -/

/-- The numeric value of a digit run (most significant first). -/
def digitsVal (l : List Char) : Nat :=
  l.foldl (fun acc c => 10 * acc + (c.toNat - '0'.toNat)) 0

/-- Go's `strconv.ParseInt(s, 10, 64)` on the strings the capture groups
can produce (non-empty unsigned decimal digit runs): the value when it
fits in a signed 64-bit integer, an error (`strconv.ErrRange` in Go)
otherwise.  Inputs that are empty or contain a non-digit also error
(`strconv.ErrSyntax`); the captures never produce them. -/
def parseInt64 (l : List Char) : Except Unit Int :=
  if l = [] ∨ ¬ (l.all Char.isDigit) then .error ()
  else if digitsVal l ≤ 2 ^ 63 - 1 then .ok (digitsVal l)
  else .error ()

/-- Reduction of an integer into the signed 64-bit range, as Go's
`int64` addition wraps (`int(start + amount)` on a 64-bit platform). -/
def wrap64 (x : Int) : Int := (x + 2 ^ 63) % 2 ^ 64 - 2 ^ 63

/-! ## `findChangesByHunkHeader` -/

/-- The loop body of `findChangesByHunkHeader`: parse each match's two
captured fields, emit the pair `(start, start + amount)` (the addition
performed in `int64`), abort with the error of the first field that
fails to parse. -/
def buildRanges : List (List Char × List Char) → Except Unit (List (Int × Int))
  | [] => .ok []
  | (d1, d2) :: rest =>
    match parseInt64 d1, parseInt64 d2, buildRanges rest with
    | .ok s, .ok a, .ok rs => .ok ((s, wrap64 (s + a)) :: rs)
    | _, _, _ => .error ()

/-- `findChangesByHunkHeader` (src/main.go:150-171): all `+start,amount`
blocks of the header as `(start, start + amount)` pairs, or the parse
error. -/
def findChangesByHunkHeader (hunkHeader : List Char) : Except Unit (List (Int × Int)) :=
  buildRanges (findMatches hunkHeader)

/-! ## The data model -/

/-- `Changes` (src/main.go:66-68): one line range, `Start`/`End`
inclusive as used by the selection loop. -/
structure Changes where
  start : Int
  end' : Int
deriving DecidableEq, Repr

/-- `FileChange` (src/main.go:70-73). -/
structure FileChange where
  changes : List Changes
  path : String
deriving DecidableEq, Repr

/-- The part of a `result.Issue` the program reads: `FilePath()` (the
position's file name) and `Pos.Line`. -/
structure Issue where
  filePath : String
  line : Int
deriving DecidableEq, Repr

/-! ## `findChanges` -/

/-- The inner loop of `findChanges` (src/main.go:222-235) over one
file's hunk headers: concatenate, in header order, the ranges each
header parses to, converting each pair to a `Changes`; propagate the
first parse error. -/
def collectRanges : List (List Char) → Except Unit (List Changes)
  | [] => .ok []
  | h :: hs =>
    match findChangesByHunkHeader h, collectRanges hs with
    | .ok ps, .ok rest => .ok (ps.map (fun p => ⟨p.1, p.2⟩) ++ rest)
    | _, _ => .error ()

/-- `findChanges` (src/main.go:209-247), with the two subprocess outputs
as parameters: `files` is what `listChangedFiles` returned and
`hunks f` is what `findHunkHeadersOfFile` returned for file `f`.  Files
whose accumulated range list is empty are dropped; the others are
emitted in input order with their ranges in parse order. -/
def findChanges (hunks : String → List (List Char)) : List String → Except Unit (List FileChange)
  | [] => .ok []
  | f :: rest =>
    match collectRanges (hunks f), findChanges hunks rest with
    | .ok cs, .ok out => .ok (if cs = [] then out else ⟨cs, f⟩ :: out)
    | _, _ => .error ()

/-- `getChangesByFileName` (src/main.go:249-255): the change index as a
map from path to `FileChange`, last write wins. -/
def getChangesByFileName (changes : List FileChange) : String → Option FileChange :=
  changes.foldl (fun m c => fun p => if p = c.path then some c else m p) (fun _ => none)

/-! ## The selection loop of `main` -/

/-- The inner loop of `main` (src/main.go:58-62): the issue is printed
once for every range that contains its line, in range order. -/
def emitChanges (i : Issue) : List Changes → List Issue
  | [] => []
  | c :: rest =>
    (if c.start ≤ i.line ∧ i.line ≤ c.end' then [i] else []) ++ emitChanges i rest

/-- One iteration of the loop of `main` (src/main.go:52-63): skip the
issue when its file path is not a key of the index, otherwise run the
inner loop over that file's ranges. -/
def emitIssue (index : String → Option FileChange) (i : Issue) : List Issue :=
  match index i.filePath with
  | none => []
  | some fc => emitChanges i fc.changes

/-- The selection loop of `main` (src/main.go:52-63): the sequence of
issues printed, in print order. -/
def selectIssues (index : String → Option FileChange) : List Issue → List Issue
  | [] => []
  | i :: rest => emitIssue index i ++ selectIssues index rest

/-! ## The orchestrator -/

/-- `main` (src/main.go:28-64) after `arg.MustParse`, with every
external effect a parameter: `execStatus` is the exit status of the
lint subprocess (`lint.Execute()`, discarded by the code at line 40),
`jsonIssues` the result of reading and decoding the JSON output file,
`changes` the result of `findChanges`.  Returns the printed issues, or
the error `main` panics with. -/
def runMain (execStatus : Except Unit Unit) (jsonIssues : Except Unit (List Issue))
    (changes : Except Unit (List FileChange)) : Except Unit (List Issue) :=
  match jsonIssues with
  | .error e => .error e
  | .ok issues =>
    match changes with
    | .error e => .error e
    | .ok cs => .ok (selectIssues (getChangesByFileName cs) issues)

/-! ## Derived quantities used in the statements -/

/-- The number of ranges of `i`'s file that contain `i`'s line — by the
shape of the selection loop, how many times `i` is printed. -/
def matchCount (index : String → Option FileChange) (i : Issue) : Nat :=
  match index i.filePath with
  | none => 0
  | some fc => fc.changes.countP (fun c => decide (c.start ≤ i.line ∧ i.line ≤ c.end'))

/-- The `Changes` one hunk header contributes to its file (empty when
the header fails to parse; on the success path of `findChanges` no
header fails). -/
def headerRanges (h : List Char) : List Changes :=
  ((findChangesByHunkHeader h).toOption.getD []).map (fun p => ⟨p.1, p.2⟩)

/-- All `Changes` accumulated for one file: the per-header ranges
concatenated in header order, then match order within a header. -/
def fileRanges (hunks : String → List (List Char)) (f : String) : List Changes :=
  (hunks f).flatMap headerRanges

/-! ## Scanner lemmas -/

theorem isDigit_ne_plus {c : Char} (h : c.isDigit = true) : c ≠ '+' :=
  fun he => absurd (he ▸ h) (by decide)

theorem isDigit_ne_comma {c : Char} (h : c.isDigit = true) : c ≠ ',' :=
  fun he => absurd (he ▸ h) (by decide)

theorem takeWhile_append_run (p : Char → Bool) (d r : List Char)
    (hd : ∀ c ∈ d, p c = true) (hr : ∀ c ∈ r.head?, p c = false) :
    (d ++ r).takeWhile p = d := by
  induction d with
  | nil =>
    cases r with
    | nil => rfl
    | cons c cs => simp [List.takeWhile_cons, hr c rfl]
  | cons x xs ih =>
    have hx : p x = true := hd x (List.mem_cons_self _ _)
    have hxs := ih (fun c hc => hd c (List.mem_cons_of_mem _ hc))
    simp [List.takeWhile_cons, hx, hxs]

theorem dropWhile_append_run (p : Char → Bool) (d r : List Char)
    (hd : ∀ c ∈ d, p c = true) (hr : ∀ c ∈ r.head?, p c = false) :
    (d ++ r).dropWhile p = r := by
  induction d with
  | nil =>
    cases r with
    | nil => rfl
    | cons c cs => simp [List.dropWhile_cons, hr c rfl]
  | cons x xs ih =>
    have hx : p x = true := hd x (List.mem_cons_self _ _)
    have hxs := ih (fun c hc => hd c (List.mem_cons_of_mem _ hc))
    simp [List.dropWhile_cons, hx, hxs]

theorem matchPlus_eq_some (c d r : List Char) (hc : c ≠ [])
    (hcd : ∀ x ∈ c, x.isDigit = true) (hd : d ≠ [])
    (hdd : ∀ x ∈ d, x.isDigit = true)
    (hr : ∀ x ∈ r.head?, x.isDigit = false) :
    matchPlus (c ++ ',' :: (d ++ r)) = some (c, d) := by
  have h1 : (c ++ ',' :: (d ++ r)).takeWhile Char.isDigit = c :=
    takeWhile_append_run _ c _ hcd (by intro x hx; cases hx; decide)
  have h2 : (c ++ ',' :: (d ++ r)).dropWhile Char.isDigit = ',' :: (d ++ r) :=
    dropWhile_append_run _ c _ hcd (by intro x hx; cases hx; decide)
  have h3 : (d ++ r).takeWhile Char.isDigit = d := takeWhile_append_run _ d r hdd hr
  simp only [matchPlus, h1, h2, h3]
  simp [hc, hd]

theorem matchPlus_no_comma (n r : List Char)
    (hnd : ∀ x ∈ n, x.isDigit = true)
    (hr : ∀ x ∈ r.head?, x.isDigit = false ∧ x ≠ ',') :
    matchPlus (n ++ r) = none := by
  have h2 : (n ++ r).dropWhile Char.isDigit = r :=
    dropWhile_append_run _ n r hnd (fun x hx => (hr x hx).1)
  cases r with
  | nil => simp only [matchPlus, h2]
  | cons x xs =>
    have hx : x ≠ ',' := (hr x rfl).2
    simp only [matchPlus, h2]
    simp [hx]

theorem findMatches_append_no_plus (l r : List Char) (h : '+' ∉ l) :
    findMatches (l ++ r) = findMatches r := by
  induction l with
  | nil => rfl
  | cons c cs ih =>
    have hc : c ≠ '+' := fun he => h (he ▸ List.mem_cons_self _ _)
    have hcs := ih (fun hm => h (List.mem_cons_of_mem _ hm))
    simp [findMatches, hc, hcs]

theorem findMatches_eq_nil (l : List Char) (h : '+' ∉ l) : findMatches l = [] := by
  have := findMatches_append_no_plus l [] h
  rwa [List.append_nil] at this

theorem not_plus_mem_of_digits {l : List Char} (h : ∀ x ∈ l, x.isDigit = true) :
    '+' ∉ l :=
  fun hm => absurd (h _ hm) (by decide)

theorem findMatches_block (c d r : List Char) (hc : c ≠ [])
    (hcd : ∀ x ∈ c, x.isDigit = true) (hd : d ≠ [])
    (hdd : ∀ x ∈ d, x.isDigit = true)
    (hr : ∀ x ∈ r.head?, x.isDigit = false) :
    findMatches ('+' :: (c ++ ',' :: (d ++ r))) = (c, d) :: findMatches r := by
  have h1 := matchPlus_eq_some c d r hc hcd hd hdd hr
  have h2 : findMatches (c ++ ',' :: (d ++ r)) = findMatches r := by
    rw [findMatches_append_no_plus c _ (not_plus_mem_of_digits hcd)]
    simp only [findMatches]
    rw [if_neg (by decide), List.nil_append,
      findMatches_append_no_plus d r (not_plus_mem_of_digits hdd)]
  simp [findMatches, h1, h2]

/-! ## Well-formedness of the captures -/

theorem matchPlus_wf {t d1 d2 : List Char} (h : matchPlus t = some (d1, d2)) :
    d1 ≠ [] ∧ (∀ x ∈ d1, x.isDigit = true) ∧ d2 ≠ [] ∧ (∀ x ∈ d2, x.isDigit = true) := by
  simp only [matchPlus] at h
  split at h
  case h_1 r2 heq =>
    split_ifs at h with hcond
    push_neg at hcond
    rw [Option.some.injEq, Prod.mk.injEq] at h
    obtain ⟨h1, h2⟩ := h
    refine ⟨h1 ▸ hcond.1, ?_, h2 ▸ hcond.2, ?_⟩
    · exact fun x hx => List.mem_takeWhile_imp (h1 ▸ hx)
    · exact fun x hx => List.mem_takeWhile_imp (h2 ▸ hx)
  case h_2 => exact absurd h (by simp)

theorem findMatches_wf (l : List Char) :
    ∀ m ∈ findMatches l,
      m.1 ≠ [] ∧ (∀ x ∈ m.1, x.isDigit = true) ∧
      m.2 ≠ [] ∧ (∀ x ∈ m.2, x.isDigit = true) := by
  induction l with
  | nil => simp [findMatches]
  | cons c cs ih =>
    intro m hm
    simp only [findMatches] at hm
    rcases List.mem_append.mp hm with h1 | h2
    · by_cases hc : c = '+'
      · rw [if_pos hc, Option.mem_toList, Option.mem_def] at h1
        obtain ⟨d1, d2⟩ := m
        exact matchPlus_wf h1
      · rw [if_neg hc] at h1
        exact absurd h1 (List.not_mem_nil m)
    · exact ih m h2

/-! ## `parseInt64` and `wrap64` lemmas -/

theorem parseInt64_ok (l : List Char) (hne : l ≠ [])
    (hd : ∀ x ∈ l, x.isDigit = true) (hb : digitsVal l ≤ 2 ^ 63 - 1) :
    parseInt64 l = .ok (digitsVal l) := by
  simp only [parseInt64, List.all_eq_true]
  rw [if_neg (by simp [hne]; exact hd), if_pos hb]

theorem parseInt64_ok_bounds {l : List Char} {v : Int} (h : parseInt64 l = .ok v) :
    0 ≤ v ∧ v ≤ 2 ^ 63 - 1 := by
  simp only [parseInt64] at h
  split_ifs at h with h1 h2
  rw [Except.ok.injEq] at h
  subst h
  omega

theorem wrap64_small {x : Int} (h1 : 0 ≤ x) (h2 : x ≤ 2 ^ 63 - 1) : wrap64 x = x := by
  simp only [wrap64]; omega

theorem wrap64_big {x : Int} (h1 : 2 ^ 63 ≤ x) (h2 : x ≤ 2 ^ 64 - 2) : wrap64 x < 0 := by
  simp only [wrap64]; omega

/-! ## `buildRanges` lemmas -/

theorem buildRanges_ok_mem {ms : List (List Char × List Char)} {rs : List (Int × Int)}
    (h : buildRanges ms = .ok rs) :
    ∀ r ∈ rs, ∃ m ∈ ms, ∃ s a : Int,
      parseInt64 m.1 = .ok s ∧ parseInt64 m.2 = .ok a ∧ r = (s, wrap64 (s + a)) := by
  induction ms generalizing rs with
  | nil =>
    simp only [buildRanges, Except.ok.injEq] at h
    subst h; simp
  | cons m ms ih =>
    obtain ⟨d1, d2⟩ := m
    cases hp1 : parseInt64 d1 with
    | error e => simp [buildRanges, hp1] at h
    | ok s =>
      cases hp2 : parseInt64 d2 with
      | error e => simp [buildRanges, hp1, hp2] at h
      | ok a =>
        cases hb : buildRanges ms with
        | error e => simp [buildRanges, hp1, hp2, hb] at h
        | ok rs' =>
          simp only [buildRanges, hp1, hp2, hb, Except.ok.injEq] at h
          subst h
          intro r hr
          rcases List.mem_cons.mp hr with hr1 | hr2
          · exact ⟨(d1, d2), List.mem_cons_self _ _, s, a, hp1, hp2, hr1⟩
          · obtain ⟨m', hm', s', a', h1, h2, h3⟩ := ih hb r hr2
            exact ⟨m', List.mem_cons_of_mem _ hm', s', a', h1, h2, h3⟩

theorem buildRanges_error_iff (ms : List (List Char × List Char)) :
    buildRanges ms = .error () ↔
      ∃ m ∈ ms, parseInt64 m.1 = .error () ∨ parseInt64 m.2 = .error () := by
  induction ms with
  | nil => simp [buildRanges]
  | cons m ms ih =>
    obtain ⟨d1, d2⟩ := m
    cases hp1 : parseInt64 d1 with
    | error e =>
      obtain rfl : e = () := rfl
      simp [buildRanges, hp1]
    | ok s =>
      cases hp2 : parseInt64 d2 with
      | error e =>
        obtain rfl : e = () := rfl
        simp [buildRanges, hp1, hp2]
      | ok a =>
        cases hb : buildRanges ms with
        | error e =>
          obtain rfl : e = () := rfl
          simp only [buildRanges, hp1, hp2, hb]
          simp [hp1, hp2, ← ih, hb]
        | ok rs' =>
          simp only [buildRanges, hp1, hp2, hb]
          simp [hp1, hp2, ← ih, hb]

/-! ## Selection-loop lemmas -/

theorem emitChanges_eq_replicate (i : Issue) (cs : List Changes) :
    emitChanges i cs =
      List.replicate (cs.countP (fun c => decide (c.start ≤ i.line ∧ i.line ≤ c.end'))) i := by
  induction cs with
  | nil => rfl
  | cons c cs ih =>
    by_cases hP : c.start ≤ i.line ∧ i.line ≤ c.end'
    · simp [emitChanges, List.countP_cons, hP, ih, List.replicate_succ]
    · simp [emitChanges, List.countP_cons, hP, ih]

theorem mem_emitChanges {i' i : Issue} {cs : List Changes} :
    i' ∈ emitChanges i cs ↔
      i' = i ∧ ∃ c ∈ cs, c.start ≤ i.line ∧ i.line ≤ c.end' := by
  rw [emitChanges_eq_replicate, List.mem_replicate]
  constructor
  · rintro ⟨hk, rfl⟩
    obtain ⟨c, hc, hpc⟩ := List.countP_pos_iff.mp (Nat.pos_of_ne_zero hk)
    exact ⟨rfl, c, hc, of_decide_eq_true hpc⟩
  · rintro ⟨rfl, c, hc, hp⟩
    exact ⟨Nat.pos_iff_ne_zero.mp (List.countP_pos_iff.mpr ⟨c, hc, decide_eq_true hp⟩), rfl⟩

theorem mem_emitIssue {index : String → Option FileChange} {i' i : Issue} :
    i' ∈ emitIssue index i ↔
      i' = i ∧ ∃ fc, index i.filePath = some fc ∧
        ∃ c ∈ fc.changes, c.start ≤ i.line ∧ i.line ≤ c.end' := by
  unfold emitIssue
  cases hidx : index i.filePath with
  | none => simp
  | some fc => simp [mem_emitChanges]

theorem mem_selectIssues {index : String → Option FileChange} {issues : List Issue}
    {i' : Issue} :
    i' ∈ selectIssues index issues ↔
      i' ∈ issues ∧ ∃ fc, index i'.filePath = some fc ∧
        ∃ c ∈ fc.changes, c.start ≤ i'.line ∧ i'.line ≤ c.end' := by
  induction issues with
  | nil => simp [selectIssues]
  | cons i rest ih =>
    simp only [selectIssues, List.mem_append, ih, mem_emitIssue, List.mem_cons]
    constructor
    · rintro (⟨rfl, h⟩ | ⟨hm, h⟩)
      · exact ⟨Or.inl rfl, h⟩
      · exact ⟨Or.inr hm, h⟩
    · rintro ⟨rfl | hm, h⟩
      · exact Or.inl ⟨rfl, h⟩
      · exact Or.inr ⟨hm, h⟩

theorem selectIssues_append (index : String → Option FileChange) (l1 l2 : List Issue) :
    selectIssues index (l1 ++ l2) = selectIssues index l1 ++ selectIssues index l2 := by
  induction l1 with
  | nil => rfl
  | cons i rest ih => simp [selectIssues, ih]

theorem emitIssue_of_matchCount_le_one {index : String → Option FileChange} {i : Issue}
    (h : matchCount index i ≤ 1) :
    emitIssue index i = [] ∨ emitIssue index i = [i] := by
  cases hidx : index i.filePath with
  | none =>
    left
    unfold emitIssue
    rw [hidx]
  | some fc =>
    have hmc : matchCount index i
        = fc.changes.countP (fun c => decide (c.start ≤ i.line ∧ i.line ≤ c.end')) := by
      unfold matchCount
      rw [hidx]
    have hei : emitIssue index i = emitChanges i fc.changes := by
      unfold emitIssue
      rw [hidx]
    rw [hei, emitChanges_eq_replicate, ← hmc]
    rcases Nat.le_one_iff_eq_zero_or_eq_one.mp h with h0 | h1
    · rw [h0]; exact Or.inl rfl
    · rw [h1]; exact Or.inr rfl

theorem selectIssues_sublist {index : String → Option FileChange} {issues : List Issue}
    (h : ∀ i ∈ issues, matchCount index i ≤ 1) :
    List.Sublist (selectIssues index issues) issues := by
  induction issues with
  | nil => simp [selectIssues]
  | cons i rest ih =>
    have hrest := ih (fun j hj => h j (List.mem_cons_of_mem _ hj))
    rcases emitIssue_of_matchCount_le_one (h i (List.mem_cons_self _ _)) with he | he
    · simp only [selectIssues, he, List.nil_append]
      exact hrest.cons i
    · simp only [selectIssues, he, List.singleton_append]
      exact hrest.cons₂ i

theorem selectIssues_idem {index : String → Option FileChange} {issues : List Issue}
    (h : ∀ i ∈ issues, matchCount index i ≤ 1) :
    selectIssues index (selectIssues index issues) = selectIssues index issues := by
  induction issues with
  | nil => rfl
  | cons i rest ih =>
    have hrest := ih (fun j hj => h j (List.mem_cons_of_mem _ hj))
    rcases emitIssue_of_matchCount_le_one (h i (List.mem_cons_self _ _)) with he | he
    · simp only [selectIssues, he, List.nil_append]
      exact hrest
    · simp only [selectIssues, he, List.singleton_append, hrest]

/-! ## `findChanges` lemmas -/

theorem collectRanges_ok {hs : List (List Char)} {cs : List Changes}
    (h : collectRanges hs = .ok cs) : cs = hs.flatMap headerRanges := by
  induction hs generalizing cs with
  | nil =>
    simp only [collectRanges, Except.ok.injEq] at h
    subst h; simp
  | cons hh hs ih =>
    cases hp : findChangesByHunkHeader hh with
    | error e => simp [collectRanges, hp] at h
    | ok ps =>
      cases hr : collectRanges hs with
      | error e => simp [collectRanges, hp, hr] at h
      | ok rest =>
        simp only [collectRanges, hp, hr, Except.ok.injEq] at h
        subst h
        simp [headerRanges, hp, ih hr, Except.toOption]

theorem findChanges_ok {hunks : String → List (List Char)} {files : List String}
    {fcs : List FileChange} (h : findChanges hunks files = .ok fcs) :
    fcs = (files.filter (fun f => decide (fileRanges hunks f ≠ []))).map
      (fun f => ⟨fileRanges hunks f, f⟩) := by
  induction files generalizing fcs with
  | nil =>
    simp only [findChanges, Except.ok.injEq] at h
    subst h; simp
  | cons f rest ih =>
    cases hc : collectRanges (hunks f) with
    | error e => simp [findChanges, hc] at h
    | ok cs =>
      cases hr : findChanges hunks rest with
      | error e => simp [findChanges, hc, hr] at h
      | ok out =>
        simp only [findChanges, hc, hr, Except.ok.injEq] at h
        subst h
        have hcs : cs = fileRanges hunks f := collectRanges_ok hc
        by_cases hnil : cs = []
        · rw [if_pos hnil]
          simp [List.filter_cons, ← hcs, hnil, ih hr]
        · rw [if_neg hnil]
          simp [List.filter_cons, ← hcs, hnil, ih hr]

/-! ## Header-shape lemmas -/

theorem parse_block_aux (pre c d r : List Char) (hpre : '+' ∉ pre) (hc : c ≠ [])
    (hcd : ∀ x ∈ c, x.isDigit = true) (hd : d ≠ [])
    (hdd : ∀ x ∈ d, x.isDigit = true)
    (hr : ∀ x ∈ r.head?, x.isDigit = false) :
    findMatches (pre ++ '+' :: (c ++ ',' :: (d ++ r))) = (c, d) :: findMatches r := by
  rw [findMatches_append_no_plus _ _ hpre, findMatches_block c d r hc hcd hd hdd hr]

theorem head_append_not_digit (p X : List Char)
    (hp : ∀ x ∈ p.head?, x.isDigit = false)
    (hX : ∀ x ∈ X.head?, x.isDigit = false) :
    ∀ x ∈ (p ++ X).head?, x.isDigit = false := by
  cases p with
  | nil => simpa using hX
  | cons a as =>
    intro x hx
    cases hx
    exact hp a rfl

theorem parse_one_block (pre c d r : List Char) (hpre : '+' ∉ pre) (hrp : '+' ∉ r)
    (hc : c ≠ []) (hcd : ∀ x ∈ c, x.isDigit = true)
    (hd : d ≠ []) (hdd : ∀ x ∈ d, x.isDigit = true)
    (hr : ∀ x ∈ r.head?, x.isDigit = false)
    (hb : digitsVal c + digitsVal d ≤ 2 ^ 63 - 1) :
    findChangesByHunkHeader (pre ++ '+' :: (c ++ ',' :: (d ++ r)))
      = .ok [((digitsVal c : Int), (digitsVal c : Int) + (digitsVal d : Int))] := by
  unfold findChangesByHunkHeader
  rw [parse_block_aux pre c d r hpre hc hcd hd hdd hr, findMatches_eq_nil r hrp]
  have hbc : digitsVal c ≤ 2 ^ 63 - 1 := by omega
  have hbd : digitsVal d ≤ 2 ^ 63 - 1 := by omega
  simp only [buildRanges, parseInt64_ok c hc hcd hbc, parseInt64_ok d hd hdd hbd]
  rw [wrap64_small (by positivity) (by push_cast; omega)]

theorem parse_two_blocks (p0 p1 p2 c1 d1 c2 d2 : List Char)
    (hp0 : '+' ∉ p0) (hp1 : '+' ∉ p1) (hp2 : '+' ∉ p2)
    (hh1 : ∀ x ∈ p1.head?, x.isDigit = false)
    (hh2 : ∀ x ∈ p2.head?, x.isDigit = false)
    (hc1 : c1 ≠ []) (hcd1 : ∀ x ∈ c1, x.isDigit = true)
    (hd1 : d1 ≠ []) (hdd1 : ∀ x ∈ d1, x.isDigit = true)
    (hc2 : c2 ≠ []) (hcd2 : ∀ x ∈ c2, x.isDigit = true)
    (hd2 : d2 ≠ []) (hdd2 : ∀ x ∈ d2, x.isDigit = true)
    (hb1 : digitsVal c1 + digitsVal d1 ≤ 2 ^ 63 - 1)
    (hb2 : digitsVal c2 + digitsVal d2 ≤ 2 ^ 63 - 1) :
    findChangesByHunkHeader
        (p0 ++ '+' :: (c1 ++ ',' :: (d1 ++ (p1 ++ '+' :: (c2 ++ ',' :: (d2 ++ p2))))))
      = .ok [((digitsVal c1 : Int), (digitsVal c1 : Int) + (digitsVal d1 : Int)),
             ((digitsVal c2 : Int), (digitsVal c2 : Int) + (digitsVal d2 : Int))] := by
  unfold findChangesByHunkHeader
  have hhead : ∀ x ∈ (p1 ++ '+' :: (c2 ++ ',' :: (d2 ++ p2))).head?, x.isDigit = false := by
    refine head_append_not_digit p1 _ hh1 ?_
    intro x hx
    cases hx
    decide
  rw [parse_block_aux p0 c1 d1 _ hp0 hc1 hcd1 hd1 hdd1 hhead,
    parse_block_aux p1 c2 d2 p2 hp1 hc2 hcd2 hd2 hdd2 hh2,
    findMatches_eq_nil p2 hp2]
  have hbc1 : digitsVal c1 ≤ 2 ^ 63 - 1 := by omega
  have hbd1 : digitsVal d1 ≤ 2 ^ 63 - 1 := by omega
  have hbc2 : digitsVal c2 ≤ 2 ^ 63 - 1 := by omega
  have hbd2 : digitsVal d2 ≤ 2 ^ 63 - 1 := by omega
  simp only [buildRanges, parseInt64_ok c1 hc1 hcd1 hbc1, parseInt64_ok d1 hd1 hdd1 hbd1,
    parseInt64_ok c2 hc2 hcd2 hbc2, parseInt64_ok d2 hd2 hdd2 hbd2]
  rw [wrap64_small (by positivity) (by push_cast; omega),
    wrap64_small (by positivity) (by push_cast; omega)]

/-! ## The claims -/

/-- C1: a finding in the input is returned by the selection loop of `main`
iff its file path is a key of the change index and at least one range
`{s, e}` of that file satisfies `s ≤ L ≤ e` for its line `L`; in
particular `L = s` and `L = e` are included and, when every range is
missed, the finding is excluded. -/
theorem c1_selection_iff (index : String → Option FileChange) (issues : List Issue)
    (i : Issue) (h : i ∈ issues) :
    i ∈ selectIssues index issues ↔
      ∃ fc, index i.filePath = some fc ∧
        ∃ c ∈ fc.changes, c.start ≤ i.line ∧ i.line ≤ c.end' := by
  rw [mem_selectIssues]
  simp [h]

/-- C1, witnessed at the boundary lines of the range `{10, 15}`: line 12
inside, line 10 = `s` and line 15 = `e` selected, line 16 = `e + 1` not. -/
theorem c1_selection_iff_witness :
    ((⟨"a.go", 12⟩ : Issue) ∈ [(⟨"a.go", 12⟩ : Issue), ⟨"a.go", 16⟩, ⟨"b.go", 5⟩]) ∧
    ((⟨"a.go", 12⟩ : Issue) ∈
        selectIssues (getChangesByFileName [⟨[⟨10, 15⟩], "a.go"⟩])
          [⟨"a.go", 12⟩, ⟨"a.go", 16⟩, ⟨"b.go", 5⟩] ↔
      ∃ fc, getChangesByFileName [⟨[⟨10, 15⟩], "a.go"⟩] (⟨"a.go", 12⟩ : Issue).filePath
          = some fc ∧
        ∃ c ∈ fc.changes, c.start ≤ (⟨"a.go", 12⟩ : Issue).line ∧
          (⟨"a.go", 12⟩ : Issue).line ≤ c.end') :=
  ⟨by decide, c1_selection_iff _ _ _ (by decide)⟩

/-- C5: the selection loop never emits a finding whose file path is not a
key of the change index; such findings are dropped silently (the loop is
a total function — it cannot fail). -/
theorem c5_untracked_never_returned (index : String → Option FileChange)
    (issues : List Issue) (i : Issue) (h : i ∈ selectIssues index issues) :
    (index i.filePath).isSome = true := by
  obtain ⟨-, fc, hfc, -⟩ := mem_selectIssues.mp h
  simp [hfc]

/-- C5, witnessed on a selected finding of a tracked file. -/
theorem c5_untracked_never_returned_witness :
    ((⟨"a.go", 12⟩ : Issue) ∈
        selectIssues (getChangesByFileName [⟨[⟨10, 15⟩], "a.go"⟩])
          [⟨"a.go", 12⟩, ⟨"b.go", 5⟩]) ∧
    (getChangesByFileName [⟨[⟨10, 15⟩], "a.go"⟩]
        (⟨"a.go", 12⟩ : Issue).filePath).isSome = true :=
  ⟨by decide,
    c5_untracked_never_returned (getChangesByFileName [⟨[⟨10, 15⟩], "a.go"⟩])
      [⟨"a.go", 12⟩, ⟨"b.go", 5⟩] ⟨"a.go", 12⟩ (by decide)⟩

/-- C8: `findChangesByHunkHeader` returns an error (and then no ranges)
exactly when one of the two numeric fields of some matched
`+digits,digits` block fails to parse as a 64-bit integer; the error is
surfaced, and on success every matched field parsed. -/
theorem c8_parse_error_iff (hunkHeader : List Char) :
    findChangesByHunkHeader hunkHeader = .error () ↔
      ∃ m ∈ findMatches hunkHeader,
        parseInt64 m.1 = .error () ∨ parseInt64 m.2 = .error () :=
  buildRanges_error_iff (findMatches hunkHeader)

/-- C9: `main` discards the exit status of the lint-runner invocation:
the run's outcome is the same for every exit status, and with any exit
status it proceeds to decode the JSON issues and filter them. -/
theorem c9_exit_status_ignored (e1 e2 : Except Unit Unit)
    (jsonIssues : Except Unit (List Issue)) (changes : Except Unit (List FileChange)) :
    runMain e1 jsonIssues changes = runMain e2 jsonIssues changes ∧
    ∀ issues cs, runMain e1 (.ok issues) (.ok cs)
        = .ok (selectIssues (getChangesByFileName cs) issues) :=
  ⟨rfl, fun _ _ => rfl⟩

/-- C10: a finding whose file is in the index and whose line lies in
`k ≥ 1` of that file's ranges is printed exactly `k` times by the
selection loop — once per matching range. -/
theorem c10_emitted_once_per_matching_range (index : String → Option FileChange)
    (pre post : List Issue) (i : Issue) (fc : FileChange)
    (h1 : index i.filePath = some fc) (h2 : 1 ≤ matchCount index i) :
    selectIssues index (pre ++ i :: post)
      = selectIssues index pre ++ List.replicate (matchCount index i) i
          ++ selectIssues index post := by
  have hei : emitIssue index i = List.replicate (matchCount index i) i := by
    have hmc : matchCount index i
        = fc.changes.countP (fun c => decide (c.start ≤ i.line ∧ i.line ≤ c.end')) := by
      unfold matchCount
      rw [h1]
    have he : emitIssue index i = emitChanges i fc.changes := by
      unfold emitIssue
      rw [h1]
    rw [he, emitChanges_eq_replicate, hmc]
  rw [selectIssues_append]
  have hcons : selectIssues index (i :: post)
      = List.replicate (matchCount index i) i ++ selectIssues index post := by
    simp only [selectIssues, hei]
  rw [hcons, List.append_assoc]

/-- C10, witnessed on overlapping ranges `{1, 5}` and `{3, 8}`: the
finding at line 4 is printed twice. -/
theorem c10_emitted_once_per_matching_range_witness :
    (getChangesByFileName [⟨[⟨1, 5⟩, ⟨3, 8⟩], "a.go"⟩] (⟨"a.go", 4⟩ : Issue).filePath
        = some ⟨[⟨1, 5⟩, ⟨3, 8⟩], "a.go"⟩) ∧
    (1 ≤ matchCount (getChangesByFileName [⟨[⟨1, 5⟩, ⟨3, 8⟩], "a.go"⟩]) ⟨"a.go", 4⟩) ∧
    selectIssues (getChangesByFileName [⟨[⟨1, 5⟩, ⟨3, 8⟩], "a.go"⟩])
        ([⟨"b.go", 1⟩] ++ ⟨"a.go", 4⟩ :: [⟨"a.go", 9⟩])
      = selectIssues (getChangesByFileName [⟨[⟨1, 5⟩, ⟨3, 8⟩], "a.go"⟩]) [⟨"b.go", 1⟩]
          ++ List.replicate
              (matchCount (getChangesByFileName [⟨[⟨1, 5⟩, ⟨3, 8⟩], "a.go"⟩]) ⟨"a.go", 4⟩)
              ⟨"a.go", 4⟩
          ++ selectIssues (getChangesByFileName [⟨[⟨1, 5⟩, ⟨3, 8⟩], "a.go"⟩]) [⟨"a.go", 9⟩] :=
  ⟨rfl, by decide,
    c10_emitted_once_per_matching_range _ _ _ _ _ rfl (by decide)⟩

/-- C2 fails as stated: a syntactically valid `@@ -a,b +c,d @@` header
whose `c` does not fit in a signed 64-bit integer makes
`strconv.ParseInt` fail, so the parse returns an error instead of the
single range `{c, c + d}`. -/
theorem c2_counterexample :
    findChangesByHunkHeader "@@ -1,1 +9223372036854775808,1 @@".toList = .error () ∧
    (Except.error () : Except Unit (List (Int × Int)))
      ≠ .ok [(9223372036854775808, 9223372036854775809)] :=
  ⟨rfl, by simp⟩

/-- C2 (amended): for every header `@@ -a,b +c,d @@` with `a, b, c, d`
decimal digit runs whose `c + d` fits in a signed 64-bit integer, the
parse returns exactly the one range `{c, c + d}`; a header containing
two `+digits,digits` blocks (under the same bound) returns exactly two
ranges, in left-to-right order of occurrence. -/
theorem c2_header_ranges :
    (∀ a b c d : List Char,
      (∀ x ∈ a, x.isDigit = true) → (∀ x ∈ b, x.isDigit = true) →
      c ≠ [] → (∀ x ∈ c, x.isDigit = true) →
      d ≠ [] → (∀ x ∈ d, x.isDigit = true) →
      digitsVal c + digitsVal d ≤ 2 ^ 63 - 1 →
      findChangesByHunkHeader
          ('@' :: '@' :: ' ' :: '-' ::
            (a ++ (',' :: (b ++ (' ' :: '+' :: (c ++ (',' :: (d ++ [' ', '@', '@']))))))))
        = .ok [((digitsVal c : Int), (digitsVal c : Int) + (digitsVal d : Int))])
    ∧ (∀ p0 p1 p2 c1 d1 c2 d2 : List Char,
      '+' ∉ p0 → '+' ∉ p1 → '+' ∉ p2 →
      (∀ x ∈ p1.head?, x.isDigit = false) → (∀ x ∈ p2.head?, x.isDigit = false) →
      c1 ≠ [] → (∀ x ∈ c1, x.isDigit = true) →
      d1 ≠ [] → (∀ x ∈ d1, x.isDigit = true) →
      c2 ≠ [] → (∀ x ∈ c2, x.isDigit = true) →
      d2 ≠ [] → (∀ x ∈ d2, x.isDigit = true) →
      digitsVal c1 + digitsVal d1 ≤ 2 ^ 63 - 1 →
      digitsVal c2 + digitsVal d2 ≤ 2 ^ 63 - 1 →
      findChangesByHunkHeader
          (p0 ++ '+' :: (c1 ++ ',' :: (d1 ++ (p1 ++ '+' :: (c2 ++ ',' :: (d2 ++ p2))))))
        = .ok [((digitsVal c1 : Int), (digitsVal c1 : Int) + (digitsVal d1 : Int)),
               ((digitsVal c2 : Int), (digitsVal c2 : Int) + (digitsVal d2 : Int))]) := by
  constructor
  · intro a b c d ha hb hc hcd hd hdd hsum
    have hpre : '+' ∉ ('@' :: '@' :: ' ' :: '-' :: (a ++ (',' :: (b ++ [' '])))) := by
      intro hm
      simp only [List.mem_cons, List.mem_append, List.mem_singleton] at hm
      rcases hm with h | h | h | h | h | h | h | h
      · exact absurd h (by decide)
      · exact absurd h (by decide)
      · exact absurd h (by decide)
      · exact absurd h (by decide)
      · exact not_plus_mem_of_digits ha h
      · exact absurd h (by decide)
      · exact not_plus_mem_of_digits hb h
      · exact absurd h (by decide)
    have hr : ∀ x ∈ ([' ', '@', '@'] : List Char).head?, x.isDigit = false := by
      intro x hx
      cases hx
      decide
    have h := parse_one_block ('@' :: '@' :: ' ' :: '-' :: (a ++ (',' :: (b ++ [' ']))))
      c d [' ', '@', '@'] hpre (by decide) hc hcd hd hdd hr hsum
    simpa [List.append_assoc] using h
  · intro p0 p1 p2 c1 d1 c2 d2 hp0 hp1 hp2 hh1 hh2 hc1 hcd1 hd1 hdd1 hc2 hcd2 hd2 hdd2 hb1 hb2
    exact parse_two_blocks p0 p1 p2 c1 d1 c2 d2 hp0 hp1 hp2 hh1 hh2
      hc1 hcd1 hd1 hdd1 hc2 hcd2 hd2 hdd2 hb1 hb2

/-- C2, witnessed on `@@ -10,3 +12,5 @@` (one range `{12, 17}`) and on a
header text with two `+`-blocks (ranges `{3, 7}` then `{8, 10}`, in
order of occurrence). -/
theorem c2_header_ranges_witness :
    findChangesByHunkHeader "@@ -10,3 +12,5 @@".toList = .ok [(12, 17)] ∧
    findChangesByHunkHeader "@@ -1,2 +3,4 @@ +8,2".toList = .ok [(3, 7), (8, 10)] := by
  constructor
  · exact c2_header_ranges.1 "10".toList "3".toList "12".toList "5".toList
      (by decide) (by decide) (by decide) (by decide) (by decide) (by decide) (by decide)
  · exact c2_header_ranges.2 "@@ -1,2 ".toList " @@ ".toList [] "3".toList "4".toList
      "8".toList "2".toList (by decide) (by decide) (by decide)
      (by intro x hx; cases hx; decide) (by intro x hx; cases hx)
      (by decide) (by decide) (by decide) (by decide) (by decide) (by decide)
      (by decide) (by decide) (by decide) (by decide)

/-- C3: a header containing no `+` at all parses to the empty range
list without error, and a header whose `+`-part has the single-number
form `+N` (no comma-separated length) also parses to the empty range
list without error — such headers are dropped silently. -/
theorem c3_headers_without_full_plus_block :
    (∀ l : List Char, '+' ∉ l → findChangesByHunkHeader l = .ok [])
    ∧ (∀ p n r : List Char, '+' ∉ p → '+' ∉ r →
        n ≠ [] → (∀ x ∈ n, x.isDigit = true) →
        (∀ x ∈ r.head?, x.isDigit = false ∧ x ≠ ',') →
        findChangesByHunkHeader (p ++ '+' :: (n ++ r)) = .ok []) := by
  constructor
  · intro l hl
    unfold findChangesByHunkHeader
    rw [findMatches_eq_nil l hl]
    rfl
  · intro p n r hp hr hn hnd hh
    unfold findChangesByHunkHeader
    rw [findMatches_append_no_plus p _ hp]
    have hstep : findMatches ('+' :: (n ++ r))
        = (matchPlus (n ++ r)).toList ++ findMatches (n ++ r) := by
      simp [findMatches]
    rw [hstep, matchPlus_no_comma n r hnd hh,
      findMatches_append_no_plus n r (not_plus_mem_of_digits hnd),
      findMatches_eq_nil r hr]
    rfl

/-- C3, witnessed on `@@ -1,3 @@` (no `+` block) and `@@ -3 +12 @@`
(single-number form). -/
theorem c3_headers_without_full_plus_block_witness :
    findChangesByHunkHeader "@@ -1,3 @@".toList = .ok [] ∧
    findChangesByHunkHeader "@@ -3 +12 @@".toList = .ok [] := by
  constructor
  · exact c3_headers_without_full_plus_block.1 "@@ -1,3 @@".toList (by decide)
  · exact c3_headers_without_full_plus_block.2 "@@ -3 ".toList "12".toList " @@".toList
      (by decide) (by decide) (by decide) (by decide)
      (by intro x hx; cases hx; exact ⟨by decide, by decide⟩)

/-- C4 fails as stated: with two identical ranges covering the line, the
one matching finding is printed twice, so the output is not a
subsequence of the input and re-filtering doubles it again instead of
being idempotent. -/
theorem c4_counterexample :
    selectIssues (getChangesByFileName [⟨[⟨1, 5⟩, ⟨1, 5⟩], "a.go"⟩]) [⟨"a.go", 3⟩]
        = [⟨"a.go", 3⟩, ⟨"a.go", 3⟩] ∧
    ¬ List.Sublist
        (selectIssues (getChangesByFileName [⟨[⟨1, 5⟩, ⟨1, 5⟩], "a.go"⟩]) [⟨"a.go", 3⟩])
        [⟨"a.go", 3⟩] ∧
    selectIssues (getChangesByFileName [⟨[⟨1, 5⟩, ⟨1, 5⟩], "a.go"⟩])
        (selectIssues (getChangesByFileName [⟨[⟨1, 5⟩, ⟨1, 5⟩], "a.go"⟩]) [⟨"a.go", 3⟩])
      ≠ selectIssues (getChangesByFileName [⟨[⟨1, 5⟩, ⟨1, 5⟩], "a.go"⟩]) [⟨"a.go", 3⟩] := by
  refine ⟨rfl, ?_, by decide⟩
  intro hsub
  exact absurd hsub.length_le (by decide)

/-- C4 (amended): when no finding's line lies in two ranges of its file
(each listed finding matches at most one range), the output of the
selection loop is a subsequence of the input in input order, and
filtering is idempotent. -/
theorem c4_stable_and_idempotent (index : String → Option FileChange)
    (issues : List Issue) (h : ∀ i ∈ issues, matchCount index i ≤ 1) :
    List.Sublist (selectIssues index issues) issues ∧
    selectIssues index (selectIssues index issues) = selectIssues index issues :=
  ⟨selectIssues_sublist h, selectIssues_idem h⟩

/-- C4 (amended), witnessed on a one-range index. -/
theorem c4_stable_and_idempotent_witness :
    (∀ i ∈ [(⟨"a.go", 12⟩ : Issue), ⟨"a.go", 99⟩, ⟨"b.go", 5⟩],
      matchCount (getChangesByFileName [⟨[⟨10, 15⟩], "a.go"⟩]) i ≤ 1) ∧
    (List.Sublist
        (selectIssues (getChangesByFileName [⟨[⟨10, 15⟩], "a.go"⟩])
          [⟨"a.go", 12⟩, ⟨"a.go", 99⟩, ⟨"b.go", 5⟩])
        [⟨"a.go", 12⟩, ⟨"a.go", 99⟩, ⟨"b.go", 5⟩] ∧
      selectIssues (getChangesByFileName [⟨[⟨10, 15⟩], "a.go"⟩])
          (selectIssues (getChangesByFileName [⟨[⟨10, 15⟩], "a.go"⟩])
            [⟨"a.go", 12⟩, ⟨"a.go", 99⟩, ⟨"b.go", 5⟩])
        = selectIssues (getChangesByFileName [⟨[⟨10, 15⟩], "a.go"⟩])
            [⟨"a.go", 12⟩, ⟨"a.go", 99⟩, ⟨"b.go", 5⟩]) :=
  ⟨by decide, c4_stable_and_idempotent _ _ (by decide)⟩

/-- C6 fails as stated: the valid deletion-hunk header `@@ -1,3 +0,0 @@`
yields the range `{0, 0}`, whose start is 0, not `>= 1`. -/
theorem c6_counterexample :
    findChangesByHunkHeader "@@ -1,3 +0,0 @@".toList = .ok [(0, 0)] ∧
    ¬ ((1 : Int) ≤ 0) :=
  ⟨rfl, by decide⟩

/-- C6 (amended): every range returned by `findChangesByHunkHeader`
satisfies `start >= 0`, and `end >= start` unless the 64-bit computation
of `end = start + length` overflowed, in which case `end < 0`. -/
theorem c6_range_invariant (l : List Char) (rs : List (Int × Int)) (r : Int × Int)
    (h1 : findChangesByHunkHeader l = .ok rs) (h2 : r ∈ rs) :
    0 ≤ r.1 ∧ (r.1 ≤ r.2 ∨ r.2 < 0) := by
  unfold findChangesByHunkHeader at h1
  obtain ⟨m, hm, s, a, hs, ha, hr⟩ := buildRanges_ok_mem h1 r h2
  obtain ⟨hs0, hs1⟩ := parseInt64_ok_bounds hs
  obtain ⟨ha0, ha1⟩ := parseInt64_ok_bounds ha
  subst hr
  refine ⟨hs0, ?_⟩
  by_cases hov : s + a ≤ 2 ^ 63 - 1
  · left
    rw [wrap64_small (by omega) hov]
    omega
  · right
    exact wrap64_big (by omega) (by omega)

/-- C6 (amended), witnessed on `@@ -10,3 +12,5 @@` and its range
`{12, 17}`. -/
theorem c6_range_invariant_witness :
    (findChangesByHunkHeader "@@ -10,3 +12,5 @@".toList = .ok [(12, 17)]) ∧
    (((12 : Int), (17 : Int)) ∈ [((12 : Int), (17 : Int))]) ∧
    (0 ≤ ((12 : Int), (17 : Int)).1 ∧
      (((12 : Int), (17 : Int)).1 ≤ ((12 : Int), (17 : Int)).2 ∨
        ((12 : Int), (17 : Int)).2 < 0)) :=
  ⟨rfl, by decide, c6_range_invariant "@@ -10,3 +12,5 @@".toList [(12, 17)] (12, 17)
    rfl (by decide)⟩

/-- C7: when `findChanges` succeeds, its output is exactly one
`FileChange` per input file whose accumulated range list is non-empty,
in input-file order, each carrying that file's per-header ranges
concatenated in header order then match order — unmerged, unsorted and
undeduplicated — and every emitted `FileChange` has a non-empty range
list. -/
theorem c7_findChanges_shape (hunks : String → List (List Char)) (files : List String)
    (fcs : List FileChange) (h : findChanges hunks files = .ok fcs) :
    fcs = (files.filter (fun f => decide (fileRanges hunks f ≠ []))).map
        (fun f => ⟨fileRanges hunks f, f⟩) ∧
    ∀ fc ∈ fcs, fc.changes ≠ [] := by
  have hfc := findChanges_ok h
  refine ⟨hfc, ?_⟩
  intro fc hmem
  rw [hfc] at hmem
  obtain ⟨f, hf, rfl⟩ := List.mem_map.mp hmem
  have hpf := (List.mem_filter.mp hf).2
  simp only [decide_eq_true_eq] at hpf
  exact hpf

/-- C7, witnessed on two files: duplicate ranges of `a.go` pass through
unchanged and `b.go` (no ranges) is dropped. -/
theorem c7_findChanges_shape_witness :
    (findChanges
        (fun f => if f = "a.go"
          then ["@@ -1,2 +3,4 @@".toList, "@@ -1,1 +3,4 @@".toList] else [])
        ["a.go", "b.go"]
      = .ok [⟨[⟨3, 7⟩, ⟨3, 7⟩], "a.go"⟩]) ∧
    ∀ fc ∈ [(⟨[⟨3, 7⟩, ⟨3, 7⟩], "a.go"⟩ : FileChange)], fc.changes ≠ [] :=
  ⟨rfl,
    (c7_findChanges_shape
      (fun f => if f = "a.go"
        then ["@@ -1,2 +3,4 @@".toList, "@@ -1,1 +3,4 @@".toList] else [])
      ["a.go", "b.go"] [⟨[⟨3, 7⟩, ⟨3, 7⟩], "a.go"⟩] rfl).2⟩

end Linter
